import Mathlib

set_option maxRecDepth 16384
set_option exponentiation.threshold 400

/-!
Verification of the custom-command retrieval subsystem of the `please` CLI
(document parsing, keyword scoring, semantic matching, hybrid strategy,
vector stores and the persistent cache validator).

The Go sources are shallowly embedded:

* machine integers are `Nat`/`Int`;
* `float32`/`float64` values are represented by their IEEE-754 bit patterns
  (a `Nat` below `2 ^ 32`, resp. `2 ^ 64`), and the arithmetic the code
  performs on them is implemented bit-exactly below as round-to-nearest-even
  softfloat on those bit patterns (Go floating point is IEEE-754 with
  round-to-nearest-even);
* Go strings are Lean `String`s, manipulated only through their underlying
  character lists so that everything reduces;
* Go maps used only for membership/lookup are association lists; where the
  code observably iterates over a Go map (whose iteration order is
  unspecified) the model fixes insertion order and says so at the definition;
* `sort.Slice` (documented as NOT guaranteed to be stable) is modelled by
  passing the sorting function as a parameter together with its contract:
  the result is a permutation of the input that is sorted with respect to
  the supplied ordering.
-/

/-! ## IEEE-754 softfloat on bit patterns

`FloatFmt` describes a binary interchange format by its exponent-field and
trailing-significand widths (`⟨8, 23⟩` is binary32, `⟨11, 52⟩` is binary64).
-/

structure FloatFmt where
  expBits : Nat
  mantBits : Nat
deriving DecidableEq, Repr

def f32 : FloatFmt := ⟨8, 23⟩

def f64 : FloatFmt := ⟨11, 52⟩

/-- Sign bit of a bit pattern. -/
def fSign (fmt : FloatFmt) (x : Nat) : Bool :=
  (x / 2 ^ (fmt.expBits + fmt.mantBits)) % 2 = 1

/-- Biased exponent field. -/
def fExp (fmt : FloatFmt) (x : Nat) : Nat :=
  (x / 2 ^ fmt.mantBits) % 2 ^ fmt.expBits

/-- Trailing significand field. -/
def fMant (fmt : FloatFmt) (x : Nat) : Nat :=
  x % 2 ^ fmt.mantBits

def fIsNaN (fmt : FloatFmt) (x : Nat) : Bool :=
  fExp fmt x = 2 ^ fmt.expBits - 1 && fMant fmt x ≠ 0

def fIsInf (fmt : FloatFmt) (x : Nat) : Bool :=
  fExp fmt x = 2 ^ fmt.expBits - 1 && fMant fmt x = 0

/-- `x` is ±0, i.e. compares equal to `0` with the float `==` of Go. -/
def fIsZero (fmt : FloatFmt) (x : Nat) : Bool :=
  fExp fmt x = 0 && fMant fmt x = 0

def fZeroBits (fmt : FloatFmt) (neg : Bool) : Nat :=
  if neg then 2 ^ (fmt.expBits + fmt.mantBits) else 0

def fInfBits (fmt : FloatFmt) (neg : Bool) : Nat :=
  fZeroBits fmt neg + (2 ^ fmt.expBits - 1) * 2 ^ fmt.mantBits

/-- The canonical quiet NaN (what Go arithmetic produces for invalid ops). -/
def fQNaN (fmt : FloatFmt) : Nat :=
  (2 ^ fmt.expBits - 1) * 2 ^ fmt.mantBits + 2 ^ (fmt.mantBits - 1)

/-- Integral significand of a finite nonzero value: the value is
`(-1)^sign * M * 2 ^ E` with `(M, E) = fSig fmt x`. -/
def fSigM (fmt : FloatFmt) (x : Nat) : Nat :=
  if fExp fmt x = 0 then fMant fmt x else 2 ^ fmt.mantBits + fMant fmt x

def fSigE (fmt : FloatFmt) (x : Nat) : Int :=
  if fExp fmt x = 0 then 1 - (2 ^ (fmt.expBits - 1) - 1) - fmt.mantBits
  else (fExp fmt x : Int) - (2 ^ (fmt.expBits - 1) - 1) - fmt.mantBits

/-- Smallest exponent of a representable least significant bit
(`-149` for binary32, `-1074` for binary64). -/
def fWmin (fmt : FloatFmt) : Int :=
  1 - (2 ^ (fmt.expBits - 1) - 1) - fmt.mantBits

/-- Floor of log₂ (0 for 0), by structural recursion on a fuel argument so
that the kernel can evaluate it (`Nat.log2` is well-founded and does not
reduce definitionally). -/
def natLog2Aux : Nat → Nat → Nat
  | 0, _ => 0
  | fuel + 1, n => if n ≤ 1 then 0 else natLog2Aux fuel (n / 2) + 1

def natLog2 (n : Nat) : Nat :=
  natLog2Aux n n

/-- Floor of the square root, by the standard `r = 2·sqrt(n/4)` recurrence on
a fuel argument (kernel-evaluable replacement for `Nat.sqrt`). -/
def natSqrtAux : Nat → Nat → Nat
  | 0, _ => 0
  | fuel + 1, n =>
      if n < 2 then n
      else
        let r := 2 * natSqrtAux fuel (n / 4)
        if (r + 1) ^ 2 ≤ n then r + 1 else r

def natSqrt (n : Nat) : Nat :=
  natSqrtAux n n

/-- Encode an already-rounded significand `n` (with `n < 2 ^ (mantBits + 1)`,
subnormal iff `n < 2 ^ mantBits`) at lsb exponent `w`, handling the
renormalisation carry `n = 2 ^ (mantBits + 1)` and overflow to infinity. -/
def fEncodeRounded (fmt : FloatFmt) (neg : Bool) (n : Nat) (w : Int) : Nat :=
  let nw := if n = 2 ^ (fmt.mantBits + 1) then (2 ^ fmt.mantBits, w + 1) else (n, w)
  let n := nw.1
  let w := nw.2
  if n = 0 then fZeroBits fmt neg
  else if n < 2 ^ fmt.mantBits then fZeroBits fmt neg + n
  else
    let eF : Int := w + (2 ^ (fmt.expBits - 1) - 1) + fmt.mantBits
    if eF ≥ 2 ^ fmt.expBits - 1 then fInfBits fmt neg
    else fZeroBits fmt neg + eF.toNat * 2 ^ fmt.mantBits + (n - 2 ^ fmt.mantBits)

/-- Round the exact positive rational `num / den` (`den ≠ 0`) to the nearest
representable value of `fmt` (ties to even), returning its bit pattern with
sign `neg`.  This is the single rounding step shared by all operations. -/
def fRoundRat (fmt : FloatFmt) (neg : Bool) (num den : Nat) : Nat :=
  if num = 0 then fZeroBits fmt neg
  else
    let g : Int := (natLog2 num : Int) - natLog2 den
    let ge : Bool := if 0 ≤ g then den * 2 ^ g.toNat ≤ num else den ≤ num * 2 ^ (-g).toNat
    let eUnb : Int := if ge then g else g - 1
    let w : Int := max (eUnb - fmt.mantBits) (fWmin fmt)
    let ndd : Nat × Nat × Nat :=
      if 0 ≤ w then
        (num / (den * 2 ^ w.toNat), num % (den * 2 ^ w.toNat), den * 2 ^ w.toNat)
      else
        (num * 2 ^ (-w).toNat / den, num * 2 ^ (-w).toNat % den, den)
    let n0 := ndd.1
    let r := ndd.2.1
    let dd := ndd.2.2
    let n :=
      if dd < 2 * r then n0 + 1
      else if 2 * r = dd then (if n0 % 2 = 1 then n0 + 1 else n0) else n0
    fEncodeRounded fmt neg n w

/-- Round-to-nearest-even encoding of the value `(-1)^neg * m * 2 ^ e`. -/
def fEncVal (fmt : FloatFmt) (neg : Bool) (m : Nat) (e : Int) : Nat :=
  if 0 ≤ e then fRoundRat fmt neg (m * 2 ^ e.toNat) 1
  else fRoundRat fmt neg m (2 ^ (-e).toNat)

/-- IEEE-754 multiplication on bit patterns (Go `*` on floats). -/
def fmul (fmt : FloatFmt) (a b : Nat) : Nat :=
  if fIsNaN fmt a || fIsNaN fmt b then fQNaN fmt
  else if fIsInf fmt a || fIsInf fmt b then
    if fIsZero fmt a || fIsZero fmt b then fQNaN fmt
    else fInfBits fmt (Bool.xor (fSign fmt a) (fSign fmt b))
  else if fIsZero fmt a || fIsZero fmt b then
    fZeroBits fmt (Bool.xor (fSign fmt a) (fSign fmt b))
  else
    fEncVal fmt (Bool.xor (fSign fmt a) (fSign fmt b))
      (fSigM fmt a * fSigM fmt b) (fSigE fmt a + fSigE fmt b)

/-- IEEE-754 addition on bit patterns (Go `+` on floats): the exact sum of the
two values is formed and rounded once. -/
def fadd (fmt : FloatFmt) (a b : Nat) : Nat :=
  if fIsNaN fmt a || fIsNaN fmt b then fQNaN fmt
  else if fIsInf fmt a && fIsInf fmt b then
    if fSign fmt a = fSign fmt b then fInfBits fmt (fSign fmt a) else fQNaN fmt
  else if fIsInf fmt a then a
  else if fIsInf fmt b then b
  else if fIsZero fmt a && fIsZero fmt b then
    fZeroBits fmt (fSign fmt a && fSign fmt b)
  else if fIsZero fmt a then b
  else if fIsZero fmt b then a
  else
    let ea := fSigE fmt a
    let eb := fSigE fmt b
    let em := min ea eb
    let s : Int := (if fSign fmt a then -1 else 1) * fSigM fmt a * 2 ^ (ea - em).toNat
      + (if fSign fmt b then -1 else 1) * fSigM fmt b * 2 ^ (eb - em).toNat
    if s = 0 then fZeroBits fmt false
    else fEncVal fmt (s < 0) s.natAbs em

/-- IEEE-754 division on bit patterns (Go `/` on floats). -/
def fdiv (fmt : FloatFmt) (a b : Nat) : Nat :=
  if fIsNaN fmt a || fIsNaN fmt b then fQNaN fmt
  else if fIsInf fmt a then
    if fIsInf fmt b then fQNaN fmt
    else fInfBits fmt (Bool.xor (fSign fmt a) (fSign fmt b))
  else if fIsInf fmt b then fZeroBits fmt (Bool.xor (fSign fmt a) (fSign fmt b))
  else if fIsZero fmt b then
    if fIsZero fmt a then fQNaN fmt
    else fInfBits fmt (Bool.xor (fSign fmt a) (fSign fmt b))
  else if fIsZero fmt a then fZeroBits fmt (Bool.xor (fSign fmt a) (fSign fmt b))
  else
    let e : Int := fSigE fmt a - fSigE fmt b
    if 0 ≤ e then
      fRoundRat fmt (Bool.xor (fSign fmt a) (fSign fmt b))
        (fSigM fmt a * 2 ^ e.toNat) (fSigM fmt b)
    else
      fRoundRat fmt (Bool.xor (fSign fmt a) (fSign fmt b))
        (fSigM fmt a) (fSigM fmt b * 2 ^ (-e).toNat)

/-- IEEE-754 square root on bit patterns (`math.Sqrt` restricted to the given
format; Go's `math.Sqrt` is the correctly rounded IEEE operation). -/
def fsqrt (fmt : FloatFmt) (a : Nat) : Nat :=
  if fIsNaN fmt a then fQNaN fmt
  else if fIsZero fmt a then fZeroBits fmt (fSign fmt a)
  else if fSign fmt a then fQNaN fmt
  else if fIsInf fmt a then a
  else
    let m := fSigM fmt a
    let e := fSigE fmt a
    let eV : Int := natLog2 m + e
    let eS : Int := eV / 2
    let w : Int := max (eS - fmt.mantBits) (fWmin fmt)
    let e2 : Int := e - 2 * w
    let nd : Nat × Nat := if 0 ≤ e2 then (m * 2 ^ e2.toNat, 1) else (m, 2 ^ (-e2).toNat)
    let num := nd.1
    let den := nd.2
    let n0 := natSqrt (num * den) / den
    let lhs := 4 * num
    let rhs := (2 * n0 + 1) ^ 2 * den
    let n :=
      if rhs < lhs then n0 + 1
      else if lhs = rhs then (if n0 % 2 = 1 then n0 + 1 else n0) else n0
    fEncodeRounded fmt false n w

/-- Exact widening conversion, Go `float64(x)` for `x : float32`. -/
def f32to64 (x : Nat) : Nat :=
  if fIsNaN f32 x then fQNaN f64
  else if fIsInf f32 x then fInfBits f64 (fSign f32 x)
  else if fIsZero f32 x then fZeroBits f64 (fSign f32 x)
  else fEncVal f64 (fSign f32 x) (fSigM f32 x) (fSigE f32 x)

/-- Narrowing conversion with round to nearest even, Go `float32(x)` for
`x : float64`. -/
def f64to32 (x : Nat) : Nat :=
  if fIsNaN f64 x then fQNaN f32
  else if fIsInf f64 x then fInfBits f32 (fSign f64 x)
  else if fIsZero f64 x then fZeroBits f32 (fSign f64 x)
  else fEncVal f32 (fSign f64 x) (fSigM f64 x) (fSigE f64 x)

/-- Go `float64(n)` for an integer `n` (round to nearest even). -/
def f64OfInt (n : Int) : Nat :=
  if n = 0 then fZeroBits f64 false
  else fEncVal f64 (decide (n < 0)) n.natAbs 0

/-- Go `int(x)` for a finite `x : float64`: truncation toward zero.  (NaN,
infinite and out-of-int64-range arguments are implementation-defined in Go
and are not reached by the embedded code on its modelled domain; the model
returns the mathematical truncation, and 0 on NaN/inf.) -/
def truncF64ToInt (x : Nat) : Int :=
  if fIsNaN f64 x || fIsInf f64 x then 0
  else if fIsZero f64 x then 0
  else
    let m := fSigM f64 x
    let e := fSigE f64 x
    let mag : Nat := if 0 ≤ e then m * 2 ^ e.toNat else m / 2 ^ (-e).toNat
    if fSign f64 x then -(mag : Int) else mag

/-! ## Binary vector encoding (`encodeVector` / `decodeVector`,
`internal/customcmd/vectorstore/sqlite.go`)

`encodeVector` writes each `float32` as its 4 little-endian bytes
(`binary.Write(buf, binary.LittleEndian, v)`); `decodeVector` reads
`len(b)/4` floats back.  A float32 is its bit pattern here, a byte is a
`Nat < 256`. -/

def bytesLE32 (x : Nat) : List Nat :=
  [x % 256, x / 256 % 256, x / 2 ^ 16 % 256, x / 2 ^ 24 % 256]

def encodeVector (v : List Nat) : List Nat :=
  v.flatMap bytesLE32

def decodeVector : List Nat → List Nat
  | b0 :: b1 :: b2 :: b3 :: rest =>
      (b0 + 256 * b1 + 2 ^ 16 * b2 + 2 ^ 24 * b3) :: decodeVector rest
  | _ => []

theorem decodeVector_encodeVector (v : List Nat) (h : ∀ x ∈ v, x < 2 ^ 32) :
    decodeVector (encodeVector v) = v := by
  induction v with
  | nil => rfl
  | cons x xs ih =>
      have hx : x < 2 ^ 32 := h x (List.mem_cons_self x xs)
      have hxs : ∀ y ∈ xs, y < 2 ^ 32 := fun y hy => h y (List.mem_cons_of_mem x hy)
      have hhead : x % 256 + 256 * (x / 256 % 256) + 2 ^ 16 * (x / 2 ^ 16 % 256)
          + 2 ^ 24 * (x / 2 ^ 24 % 256) = x := by
        omega
      simp only [encodeVector, List.flatMap_cons, bytesLE32] at *
      simp [decodeVector]
      exact ⟨by omega, ih hxs⟩

theorem encodeVector_length (v : List Nat) :
    (encodeVector v).length = 4 * v.length := by
  induction v with
  | nil => rfl
  | cons x xs ih =>
      simp only [encodeVector, List.flatMap_cons, List.length_append, bytesLE32] at *
      simp [ih]
      omega

/-! ## Cosine similarity (`cosineSimilarity`, memory.go)

```go
func cosineSimilarity(a, b []float32) float32 {
    if len(a) != len(b) { return 0 }
    var dotProduct, normA, normB float32
    for i := range a {
        dotProduct += a[i] * b[i]
        normA += a[i] * a[i]
        normB += b[i] * b[i]
    }
    if normA == 0 || normB == 0 { return 0 }
    return dotProduct / (float32(math.Sqrt(float64(normA))) * float32(math.Sqrt(float64(normB))))
}
```
-/

theorem fmul_comm (fmt : FloatFmt) (a b : Nat) : fmul fmt a b = fmul fmt b a := by
  unfold fmul
  rw [Bool.or_comm (fIsNaN fmt a), Bool.or_comm (fIsInf fmt a)]
  simp only [Bool.or_comm (fIsZero fmt a) (fIsZero fmt b),
    Bool.xor_comm (fSign fmt a) (fSign fmt b),
    Nat.mul_comm (fSigM fmt a) (fSigM fmt b),
    Int.add_comm (fSigE fmt a) (fSigE fmt b)]

/-- The accumulation loop of `cosineSimilarity`: one pass updating
`(dotProduct, normA, normB)` over the paired elements. -/
def cosLoop : List (Nat × Nat) → Nat × Nat × Nat → Nat × Nat × Nat
  | [], acc => acc
  | (x, y) :: rest, (d, na, nb) =>
      cosLoop rest
        (fadd f32 d (fmul f32 x y), fadd f32 na (fmul f32 x x), fadd f32 nb (fmul f32 y y))

/-- `float32(math.Sqrt(float64(x)))`: widen, correctly rounded binary64 square
root, narrow back (this is exactly what the Go expression performs). -/
def sqrt32via64 (x : Nat) : Nat :=
  f64to32 (fsqrt f64 (f32to64 x))

def cosineSimilarity (a b : List Nat) : Nat :=
  if a.length ≠ b.length then fZeroBits f32 false
  else
    let acc := cosLoop (a.zip b) (fZeroBits f32 false, fZeroBits f32 false, fZeroBits f32 false)
    let dot := acc.1
    let na := acc.2.1
    let nb := acc.2.2
    if fIsZero f32 na || fIsZero f32 nb then fZeroBits f32 false
    else fdiv f32 dot (fmul f32 (sqrt32via64 na) (sqrt32via64 nb))

theorem cosLoop_swap (l : List (Nat × Nat)) (d na nb : Nat) :
    cosLoop (l.map Prod.swap) (d, nb, na)
      = ((cosLoop l (d, na, nb)).1, (cosLoop l (d, na, nb)).2.2, (cosLoop l (d, na, nb)).2.1) := by
  induction l generalizing d na nb with
  | nil => rfl
  | cons p rest ih =>
      obtain ⟨x, y⟩ := p
      simp only [List.map_cons, Prod.swap, cosLoop]
      rw [fmul_comm f32 y x]
      exact ih _ _ _

/-! ## Strings and tokenisation (matcher.go)

Go strings are embedded as Lean `String`s but manipulated only through their
character lists.  The Unicode classifier tables (`unicode.IsLetter`,
`unicode.IsDigit`, `unicode.ToLower`) are modelled on their ASCII fragment,
which is the alphabet the documentation corpus and the claims range over;
`len(word)` (a byte count in Go) coincides with the character count there. -/

def goIsLetter (c : Char) : Bool :=
  (65 ≤ c.toNat && c.toNat ≤ 90) || (97 ≤ c.toNat && c.toNat ≤ 122)

def goIsDigit (c : Char) : Bool :=
  48 ≤ c.toNat && c.toNat ≤ 57

def goToLowerChar (c : Char) : Char :=
  if 65 ≤ c.toNat && c.toNat ≤ 90 then Char.ofNat (c.toNat + 32) else c

/-- `strings.ToLower`. -/
def goStrToLower (s : String) : String :=
  ⟨s.data.map goToLowerChar⟩

/-- Word characters kept by `tokenize`: letters, digits, `-`, `_`. -/
def isWordChar (c : Char) : Bool :=
  goIsLetter c || goIsDigit c || c = '-' || c = '_'

/-- The fixed stop-word set of `tokenize`. -/
def stopWords : List String :=
  ["a", "an", "and", "the", "in",
   "on", "at", "to", "for", "of",
   "with", "by", "from", "as", "is",
   "was", "are", "were", "be", "been",
   "my", "me", "i", "you", "it"]

/-- A finished word is kept when it is not a stop word and longer than 1. -/
def keepWord (cur : List Char) : Bool :=
  !stopWords.contains (String.mk cur) && 1 < cur.length

def flushWord (cur : List Char) : List String :=
  if keepWord cur then [String.mk cur] else []

def tokenizeAux : List Char → List Char → List String
  | [], cur => flushWord cur
  | c :: rest, cur =>
      if isWordChar c then tokenizeAux rest (cur ++ [goToLowerChar c])
      else flushWord cur ++ tokenizeAux rest []

/-- `tokenize` of matcher.go: split on non-word runes, lowercase while
building, drop stop words and words of length ≤ 1. -/
def tokenize (text : String) : List String :=
  tokenizeAux text.data []

/-- `containsWord`: exact membership of `word` in the token list. -/
def containsWord (words : List String) (word : String) : Bool :=
  words.contains word

/-- `wordOverlap`: how many words of `words1` also occur in `words2`
(the inner loop breaks at the first hit, so each `w1` counts at most once). -/
def wordOverlap (words1 words2 : List String) : Nat :=
  words1.countP (fun w => words2.contains w)

/-- Is `pre` an initial segment of `l`? (helper for `strings.Contains`). -/
def strStarts : List Char → List Char → Bool
  | [], _ => true
  | _ :: _, [] => false
  | a :: as, b :: bs => a = b && strStarts as bs

def goContainsL : List Char → List Char → Bool
  | [], sub => sub.isEmpty
  | c :: rest, sub => strStarts sub (c :: rest) || goContainsL rest sub

/-- `strings.Contains(s, sub)` (in particular `true` when `sub` is empty). -/
def goContains (s sub : String) : Bool :=
  goContainsL s.data sub.data

/-! ## Keyword matcher scoring (`Matcher.scoreDoc`, matcher.go) -/

structure GoExample where
  userRequest : String
  command : String
deriving DecidableEq, Repr

/-- `CommandDoc` (manager.go).  `updatedAt` is the file modification time;
the code only ever observes it through `.Unix()` (whole seconds), so it is
modelled directly as the Unix-seconds integer. -/
structure CommandDoc where
  filename : String
  command : String
  aliases : List String
  keywords : List String
  categories : List String
  priority : String
  version : String
  content : String
  examples : List GoExample
  updatedAt : Int
deriving DecidableEq, Repr

/-- Substring overlap in either direction between a query word `w` and a
(lowercased) document field `f`:
`strings.Contains(f, w) || strings.Contains(w, f)`. -/
def subOverlap (f w : String) : Bool :=
  goContains f w || goContains w f

/-- Alias loop of `scoreDoc`: +80 per exact alias token match, +40 per alias
with substring overlap against some query word (the inner loop breaks after
the first overlapping word). -/
def aliasScore (rw : List String) : List String → Int
  | [] => 0
  | al :: rest =>
      let low := goStrToLower al
      (if containsWord rw low then 80 else 0)
        + (if rw.any (fun w => subOverlap low w) then 40 else 0)
        + aliasScore rw rest

/-- Keyword loop of `scoreDoc`: returns (accumulated score, number of exact
keyword matches). -/
def kwScore (rw : List String) : List String → Int × Nat
  | [] => (0, 0)
  | k :: rest =>
      let low := goStrToLower k
      let p := kwScore rw rest
      ((if containsWord rw low then 10 else 0)
         + (if rw.any (fun w => subOverlap low w) then 3 else 0) + p.1,
       (if containsWord rw low then 1 else 0) + p.2)

def catScore (rw : List String) : List String → Int
  | [] => 0
  | c :: rest =>
      (if containsWord rw (goStrToLower c) then 5 else 0) + catScore rw rest

def exScore (rw : List String) : List GoExample → Int
  | [] => 0
  | e :: rest =>
      let ov := wordOverlap rw (tokenize (goStrToLower e.userRequest))
      (if 0 < ov then (ov : Int) * 15 else 0) + exScore rw rest

/-- Priority boost of `scoreDoc`: `score = int(float64(score) * 1.3)` for
high, `* 1.1` for medium — modelled with the exact binary64 arithmetic the Go
code performs (the literals `1.3` and `1.1` are the binary64 roundings of
13/10 and 11/10). -/
def priorityAdjust (p : String) (score : Int) : Int :=
  if goStrToLower p = "high" then
    truncF64ToInt (fmul f64 (f64OfInt score) (fRoundRat f64 false 13 10))
  else if goStrToLower p = "medium" then
    truncF64ToInt (fmul f64 (f64OfInt score) (fRoundRat f64 false 11 10))
  else score

/-- `Matcher.scoreDoc` (matcher.go), accumulating exactly the source's
components in source order. -/
def scoreDoc (doc : CommandDoc) (rw : List String) : Int :=
  let cn := goStrToLower doc.command
  let base : Int :=
    (if containsWord rw cn then 100 else 0)
      + (if rw.any (fun w => subOverlap cn w) then 50 else 0)
      + aliasScore rw doc.aliases
      + (kwScore rw doc.keywords).1
      + (if 2 < (kwScore rw doc.keywords).2 then ((kwScore rw doc.keywords).2 : Int) * 5 else 0)
      + catScore rw doc.categories
      + exScore rw doc.examples
  priorityAdjust doc.priority base

/-! ## `Matcher.FindRelevantDocs` (matcher.go)

The function scores every document, keeps strictly positive scores, sorts by
descending score with `sort.Slice` and returns the top `min(len, maxDocs)`.
`sort.Slice` is documented as *not* stable, so it is modelled by an explicit
`sortImpl` parameter constrained (in the theorems) by `SortSpec`: the output
must be a permutation of the input that is non-increasing in score — exactly
the guarantee `sort.Slice` gives for the comparator
`scored[i].Score > scored[j].Score`. -/

structure ScoredDoc where
  doc : CommandDoc
  score : Int
deriving DecidableEq, Repr

/-- Non-increasing score order: what `sort.Slice` guarantees pairwise. -/
def scoreGe (x y : ScoredDoc) : Prop := y.score ≤ x.score

instance : DecidableRel scoreGe := fun x y => inferInstanceAs (Decidable (y.score ≤ x.score))

/-- Contract of `sort.Slice` with the descending-score comparator. -/
def SortSpec (sortImpl : List ScoredDoc → List ScoredDoc) : Prop :=
  ∀ l : List ScoredDoc, (sortImpl l).Perm l ∧ (sortImpl l).Pairwise scoreGe

/-- The scored, strictly-positive candidate list, in document input order. -/
def scoredList (docs : List CommandDoc) (rw : List String) : List ScoredDoc :=
  (docs.map (fun d => ScoredDoc.mk d (scoreDoc d rw))).filter (fun sd => 0 < sd.score)

/-- `Matcher.FindRelevantDocs`. -/
def findRelevantDocs (sortImpl : List ScoredDoc → List ScoredDoc)
    (docs : List CommandDoc) (request : String) (maxDocs : Nat) : List CommandDoc :=
  if docs.isEmpty then []
  else
    let rw := tokenize (goStrToLower request)
    if rw.isEmpty then []
    else
      let scored := scoredList docs rw
      ((sortImpl scored).take (min scored.length maxDocs)).map (fun sd => sd.doc)

instance : IsTotal ScoredDoc scoreGe := ⟨fun a b => le_total b.score a.score⟩

instance : IsTrans ScoredDoc scoreGe := ⟨fun _ _ _ hab hbc => le_trans hbc hab⟩

/-- One admissible `sort.Slice` behaviour: stable insertion sort. -/
def stableSort (l : List ScoredDoc) : List ScoredDoc :=
  l.insertionSort scoreGe

theorem stableSort_spec : SortSpec stableSort := by
  intro l
  exact ⟨List.perm_insertionSort _ l, List.sorted_insertionSort scoreGe l⟩

/-! ## Claim C3: the scoring formula

`claimKeywordScore` is written from the claim's wording (a sum of weighted
match counts followed by the priority multiplier); the theorem proves it
coincides with the source's `scoreDoc` accumulation. -/

/-- The score formula as the specification states it: weighted sums of exact
and substring matches, keyword bonus, example overlap, then the priority
multiplier (the spec's "multiplied by 1.3/1.1 and truncated to an integer"
is the source's binary64 multiply-then-truncate, `priorityAdjust`). -/
def claimKeywordScore (doc : CommandDoc) (rw : List String) : Int :=
  let cn := goStrToLower doc.command
  let kExact : Nat := doc.keywords.countP (fun k => containsWord rw (goStrToLower k))
  let kSub : Nat := doc.keywords.countP (fun k => rw.any (fun w => subOverlap (goStrToLower k) w))
  let base : Int :=
    (if containsWord rw cn then 100 else 0)
      + (if rw.any (fun w => subOverlap cn w) then 50 else 0)
      + 80 * (doc.aliases.countP (fun al => containsWord rw (goStrToLower al)) : Int)
      + 40 * (doc.aliases.countP (fun al => rw.any (fun w => subOverlap (goStrToLower al) w)) : Int)
      + 10 * (kExact : Int) + 3 * (kSub : Int)
      + (if 2 < kExact then 5 * (kExact : Int) else 0)
      + 5 * (doc.categories.countP (fun c => containsWord rw (goStrToLower c)) : Int)
      + 15 * ((doc.examples.map
          (fun e => (wordOverlap rw (tokenize (goStrToLower e.userRequest)) : Int))).sum)
  priorityAdjust doc.priority base

theorem aliasScore_eq (rw : List String) (l : List String) :
    aliasScore rw l
      = 80 * (l.countP (fun al => containsWord rw (goStrToLower al)) : Int)
        + 40 * (l.countP (fun al => rw.any (fun w => subOverlap (goStrToLower al) w)) : Int) := by
  induction l with
  | nil => simp [aliasScore]
  | cons a rest ih =>
      simp only [aliasScore, ih, List.countP_cons]
      by_cases h1 : containsWord rw (goStrToLower a) <;>
        by_cases h2 : rw.any (fun w => subOverlap (goStrToLower a) w) <;>
          simp [h1, h2] <;> omega

theorem kwScore_eq (rw : List String) (l : List String) :
    kwScore rw l
      = (10 * (l.countP (fun k => containsWord rw (goStrToLower k)) : Int)
          + 3 * (l.countP (fun k => rw.any (fun w => subOverlap (goStrToLower k) w)) : Int),
         l.countP (fun k => containsWord rw (goStrToLower k))) := by
  induction l with
  | nil => simp [kwScore]
  | cons a rest ih =>
      simp only [kwScore, ih, List.countP_cons]
      by_cases h1 : containsWord rw (goStrToLower a) <;>
        by_cases h2 : rw.any (fun w => subOverlap (goStrToLower a) w) <;>
          refine Prod.ext ?_ ?_ <;> simp [h1, h2] <;> omega

theorem catScore_eq (rw : List String) (l : List String) :
    catScore rw l = 5 * (l.countP (fun c => containsWord rw (goStrToLower c)) : Int) := by
  induction l with
  | nil => simp [catScore]
  | cons a rest ih =>
      simp only [catScore, ih, List.countP_cons]
      by_cases h1 : containsWord rw (goStrToLower a)
      · simp [h1]
        omega
      · simp [h1]

theorem exScore_eq (rw : List String) (l : List GoExample) :
    exScore rw l
      = 15 * ((l.map
          (fun e => (wordOverlap rw (tokenize (goStrToLower e.userRequest)) : Int))).sum) := by
  induction l with
  | nil => simp [exScore]
  | cons a rest ih =>
      simp only [exScore, ih, List.map_cons, List.sum_cons]
      by_cases h1 : 0 < wordOverlap rw (tokenize (goStrToLower a.userRequest))
      · simp only [if_pos h1]; ring
      · have h0 : wordOverlap rw (tokenize (goStrToLower a.userRequest)) = 0 := by omega
        simp [h0]

/-- C3: for every document and tokenised query, `Matcher.scoreDoc` computes
exactly the claimed weighted formula — +100 exact command token match, +50
command substring overlap, +80/+40 per alias (exact/substring), +10/+3 per
keyword (exact/substring) with bonus `5 × exactCount` when more than 2
keywords matched exactly, +5 per exact category, +15 × query-token overlap
per example, then the high ×1.3 / medium ×1.1 multiplier with integer
truncation. -/
theorem scoreDoc_eq_claimKeywordScore (doc : CommandDoc) (rw : List String) :
    scoreDoc doc rw = claimKeywordScore doc rw := by
  unfold scoreDoc claimKeywordScore
  rw [aliasScore_eq, kwScore_eq, catScore_eq, exScore_eq]
  simp only []
  congr 1
  by_cases h1 : containsWord rw (goStrToLower doc.command) <;>
    by_cases h2 : rw.any (fun w => subOverlap (goStrToLower doc.command) w) <;>
      by_cases h3 : 2 < doc.keywords.countP (fun k => containsWord rw (goStrToLower k)) <;>
        simp [h1, h2, h3] <;> ring_nf

theorem mem_scoredList {docs : List CommandDoc} {rw : List String} {x : ScoredDoc}
    (hx : x ∈ scoredList docs rw) : 0 < x.score ∧ x.score = scoreDoc x.doc rw := by
  unfold scoredList at hx
  obtain ⟨hm, hpos⟩ := List.mem_filter.mp hx
  obtain ⟨d, _, rfl⟩ := List.mem_map.mp hm
  exact ⟨by simpa using hpos, rfl⟩

/-- Order-independent properties of `Matcher.FindRelevantDocs`, proved for
every sorting behaviour admissible under the `sort.Slice` contract: the
result has at most `maxDocs` documents, in non-increasing score order, each
with strictly positive score, and a query with no tokens left after
stop-word removal yields the empty list. (The relative order of equal-score
documents is decided by the standard library's `sort.Slice`, outside this
development.) -/
theorem findRelevantDocs_props (sortImpl : List ScoredDoc → List ScoredDoc)
    (docs : List CommandDoc) (request : String) (maxDocs : Nat)
    (hs : SortSpec sortImpl) :
    (findRelevantDocs sortImpl docs request maxDocs).length ≤ maxDocs
    ∧ (findRelevantDocs sortImpl docs request maxDocs).Pairwise
        (fun d1 d2 => scoreDoc d2 (tokenize (goStrToLower request))
          ≤ scoreDoc d1 (tokenize (goStrToLower request)))
    ∧ (∀ d ∈ findRelevantDocs sortImpl docs request maxDocs,
        0 < scoreDoc d (tokenize (goStrToLower request)))
    ∧ (tokenize (goStrToLower request) = []
        → findRelevantDocs sortImpl docs request maxDocs = []) := by
  by_cases h0 : docs.isEmpty
  · simp [findRelevantDocs, h0]
  by_cases h1 : (tokenize (goStrToLower request)).isEmpty
  · refine ⟨?_, ?_, ?_, ?_⟩ <;> simp [findRelevantDocs, h0, h1]
  have hout : findRelevantDocs sortImpl docs request maxDocs
      = ((sortImpl (scoredList docs (tokenize (goStrToLower request)))).take
          (min (scoredList docs (tokenize (goStrToLower request))).length maxDocs)).map
        (fun sd => sd.doc) := by
    simp [findRelevantDocs, h0, h1]
  obtain ⟨hperm, hpw⟩ := hs (scoredList docs (tokenize (goStrToLower request)))
  have hmem : ∀ x ∈ (sortImpl (scoredList docs (tokenize (goStrToLower request)))).take
      (min (scoredList docs (tokenize (goStrToLower request))).length maxDocs),
      0 < x.score ∧ x.score = scoreDoc x.doc (tokenize (goStrToLower request)) := by
    intro x hx
    exact mem_scoredList (hperm.mem_iff.mp (List.take_subset _ _ hx))
  refine ⟨?_, ?_, ?_, ?_⟩
  · rw [hout]
    simp only [List.length_map, List.length_take]
    omega
  · rw [hout]
    refine List.pairwise_map.mpr ?_
    refine List.Pairwise.imp_of_mem ?_ ((hpw.sublist (List.take_sublist _ _)))
    intro a b ha hb hr
    have h1 := hmem a ha
    have h2 := hmem b hb
    calc scoreDoc b.doc (tokenize (goStrToLower request)) = b.score := h2.2.symm
    _ ≤ a.score := hr
    _ = scoreDoc a.doc (tokenize (goStrToLower request)) := h1.2
  · intro d hd
    rw [hout] at hd
    obtain ⟨sd, hsd, rfl⟩ := List.mem_map.mp hd
    have h := hmem sd hsd
    omega
  · intro hrw
    rw [hrw] at h1
    simp at h1

def cexDocA : CommandDoc :=
  { filename := "a.md", command := "alpha", aliases := [], keywords := ["pods"],
    categories := [], priority := "", version := "", content := "",
    examples := [], updatedAt := 0 }

def cexDocB : CommandDoc :=
  { filename := "b.md", command := "beta", aliases := [], keywords := ["pods"],
    categories := [], priority := "", version := "", content := "",
    examples := [], updatedAt := 0 }

/-- `findRelevantDocs_props` instantiated at a concrete input. -/
theorem findRelevantDocs_props_witness :
    (findRelevantDocs stableSort [cexDocA, cexDocB] "pods" 1).length ≤ 1
    ∧ (findRelevantDocs stableSort [cexDocA, cexDocB] "pods" 1).Pairwise
        (fun d1 d2 => scoreDoc d2 (tokenize (goStrToLower "pods"))
          ≤ scoreDoc d1 (tokenize (goStrToLower "pods")))
    ∧ (∀ d ∈ findRelevantDocs stableSort [cexDocA, cexDocB] "pods" 1,
        0 < scoreDoc d (tokenize (goStrToLower "pods")))
    ∧ (tokenize (goStrToLower "pods") = []
        → findRelevantDocs stableSort [cexDocA, cexDocB] "pods" 1 = []) :=
  findRelevantDocs_props stableSort [cexDocA, cexDocB] "pods" 1 stableSort_spec

theorem fmul_self_of_isZero {x : Nat} (hx : fIsZero f32 x = true) :
    fmul f32 x x = 0 := by
  have h : fExp f32 x = 0 ∧ fMant f32 x = 0 := by simpa [fIsZero] using hx
  simp [fmul, fIsNaN, fIsInf, fIsZero, h.1, h.2, Bool.xor_self,
    show (2 : ℕ) ^ f32.expBits - 1 = 255 from rfl,
    show fZeroBits f32 false = 0 from rfl]

theorem cosLoop_normA_of_zero (l : List (Nat × Nat)) (d nb : Nat)
    (hz : ∀ p ∈ l, fIsZero f32 p.1 = true) :
    (cosLoop l (d, 0, nb)).2.1 = 0 := by
  induction l generalizing d nb with
  | nil => rfl
  | cons p rest ih =>
      obtain ⟨x, y⟩ := p
      have hx : fIsZero f32 x = true := hz (x, y) (List.mem_cons_self _ _)
      simp only [cosLoop, fmul_self_of_isZero hx]
      rw [show fadd f32 0 0 = 0 by decide]
      exact ih _ _ (fun q hq => hz q (List.mem_cons_of_mem _ hq))

theorem cosineSimilarity_zeroLeft (u v : List Nat) (hlen : u.length = v.length)
    (hzu : ∀ x ∈ u, fIsZero f32 x = true) : cosineSimilarity u v = 0 := by
  have hznorm : (cosLoop (u.zip v)
      (fZeroBits f32 false, fZeroBits f32 false, fZeroBits f32 false)).2.1 = 0 := by
    rw [show fZeroBits f32 false = 0 from rfl]
    exact cosLoop_normA_of_zero _ _ _ (fun p hp => hzu p.1 (List.of_mem_zip hp).1)
  have hzz : fIsZero f32 ((cosLoop (u.zip v)
      (fZeroBits f32 false, fZeroBits f32 false, fZeroBits f32 false)).2.1) = true := by
    rw [hznorm]; decide
  simp only [cosineSimilarity]
  rw [if_neg (by omega), hzz]
  rfl

theorem cosineSimilarity_comm (u v : List Nat) :
    cosineSimilarity u v = cosineSimilarity v u := by
  by_cases hlen : u.length = v.length
  · simp only [cosineSimilarity]
    rw [if_neg (show ¬(u.length ≠ v.length) by omega)]
    rw [if_neg (show ¬(v.length ≠ u.length) by omega)]
    have hswap := cosLoop_swap (u.zip v)
      (fZeroBits f32 false) (fZeroBits f32 false) (fZeroBits f32 false)
    rw [List.zip_swap] at hswap
    rw [hswap, Bool.or_comm, fmul_comm]
  · have h1 : cosineSimilarity u v = 0 := by
      simp only [cosineSimilarity]
      rw [if_pos (by omega)]
      rfl
    have h2 : cosineSimilarity v u = 0 := by
      simp only [cosineSimilarity]
      rw [if_pos (by omega)]
      rfl
    rw [h1, h2]

/-- C8 (amended: the self-similarity clause does not hold for every nonzero
vector — squared norms can underflow to exactly zero, see
`cosineSimilarity_selfsim_cex` — though it does hold exactly on e.g. the unit
vector): `cosineSimilarity` is symmetric, returns exactly 0 whenever the two
lengths differ, and returns exactly 0 whenever either vector consists of
float32 zeros (so in particular on the zero vector). -/
theorem cosineSimilarity_props (a b : List Nat) :
    cosineSimilarity a b = cosineSimilarity b a
    ∧ (a.length ≠ b.length → cosineSimilarity a b = 0)
    ∧ (a.length = b.length → (∀ x ∈ a, fIsZero f32 x = true) → cosineSimilarity a b = 0)
    ∧ (a.length = b.length → (∀ x ∈ b, fIsZero f32 x = true) → cosineSimilarity a b = 0)
    ∧ cosineSimilarity [1065353216] [1065353216] = 1065353216 := by
  refine ⟨cosineSimilarity_comm a b, ?_, cosineSimilarity_zeroLeft a b, ?_, by decide⟩
  · intro hlen
    simp only [cosineSimilarity]
    rw [if_pos (by omega)]
    rfl
  · intro hlen hzb
    rw [cosineSimilarity_comm a b]
    exact cosineSimilarity_zeroLeft b a hlen.symm hzb

/-- C8 counterexample to "`sim(a,a) == 1.0` (within floating tolerance) for
any nonzero vector a": for the nonzero subnormal vector `[2^-149]` (bit
pattern 1) the squared norm underflows to exactly `0`, so the function
returns exactly `0`, not approximately `1.0`. -/
theorem cosineSimilarity_selfsim_cex :
    cosineSimilarity [1] [1] = 0 ∧ fIsZero f32 1 = false :=
  ⟨by decide, by decide⟩

def dim384Vec : List Nat :=
  1065353216 :: 1 :: 4294967295 :: 2143289344 :: List.replicate 380 3212836864

/-- C7: decoding an encoded float32 vector reproduces exactly the same bit
patterns (no precision loss), and the encoding is the fixed-width
little-endian 4-bytes-per-element format. -/
theorem encodeVector_roundtrip (v : List Nat) (h : ∀ x ∈ v, x < 2 ^ 32) :
    decodeVector (encodeVector v) = v ∧ (encodeVector v).length = 4 * v.length :=
  ⟨decodeVector_encodeVector v h, encodeVector_length v⟩

/-- Witness for C7 on a concrete 384-element vector (the dimensionality of
`nomic-embed-text`), containing 1.0, the minimal subnormal, the maximal bit
pattern and a NaN pattern. -/
theorem encodeVector_roundtrip_witness :
    (∀ x ∈ dim384Vec, x < 2 ^ 32)
    ∧ (decodeVector (encodeVector dim384Vec) = dim384Vec
        ∧ (encodeVector dim384Vec).length = 4 * dim384Vec.length) :=
  ⟨by decide, encodeVector_roundtrip dim384Vec (by decide)⟩

/-! ## Vector stores (memory.go, sqlite.go)

Both stores are keyed maps from id to (vector, metadata).  The Go `map` of
`MemoryStore` and the `INSERT OR REPLACE` row table of `SQLiteStore` are both
association lists here, updated in place (upsert).  Where the Go code
iterates over the map (`MemoryStore.Search`) the model iterates in insertion
order — one admissible order of Go's unspecified map iteration.

The metadata `map[string]interface{}` carries exactly the three keys
`SemanticMatcher.Index` stores (`command`, `filename`, `file_mtime`), so it
is modelled as the record `Meta`. -/

structure Meta where
  command : String
  filename : String
  fileMtime : Int
deriving DecidableEq, Repr

structure VEntry where
  id : String
  vec : List Nat
  md : Meta
deriving DecidableEq, Repr

def upsertEntry : List VEntry → VEntry → List VEntry
  | [], e => [e]
  | x :: xs, e => if x.id = e.id then e :: xs else x :: upsertEntry xs e

/-- `MemoryStore.Add`: rejects an empty vector, otherwise upserts. -/
def msAdd (st : List VEntry) (i : String) (v : List Nat) (md : Meta) :
    Except String (List VEntry) :=
  if v.isEmpty then .error "empty vector" else .ok (upsertEntry st ⟨i, v, md⟩)

structure SearchResult where
  id : String
  score : Nat
  md : Meta
deriving DecidableEq, Repr

/-- `MemoryStore.Search`: error on empty query, `[]` on empty store, else
score every entry by cosine similarity, sort descending (`sort.Slice`,
modelled by the `sortRes` parameter) and take the top `min topK count`. -/
def msSearch (sortRes : List SearchResult → List SearchResult)
    (st : List VEntry) (query : List Nat) (topK : Nat) :
    Except String (List SearchResult) :=
  if query.isEmpty then .error "empty query vector"
  else if st.isEmpty then .ok []
  else
    let results := st.map (fun e => SearchResult.mk e.id (cosineSimilarity query e.vec) e.md)
    .ok ((sortRes results).take (min topK results.length))

/-- One row of the `embeddings` table of `SQLiteStore` (`id` is the primary
key; `command`, `filename`, `file_mtime` are the indexed columns extracted
from the metadata; `blob` is the encoded vector; `metaJ` the metadata JSON). -/
structure SqlRow where
  id : String
  command : String
  filename : String
  fileMtime : Int
  blob : List Nat
  metaJ : Meta
deriving DecidableEq, Repr

def sqlUpsertRow : List SqlRow → SqlRow → List SqlRow
  | [], r => [r]
  | x :: xs, r => if x.id = r.id then r :: xs else x :: sqlUpsertRow xs r

/-- `SQLiteStore.Add`: rejects an empty vector, then `INSERT OR REPLACE`
(upsert on the primary key) with the indexed columns pulled out of the
metadata. -/
def sqlAdd (rows : List SqlRow) (i : String) (v : List Nat) (md : Meta) :
    Except String (List SqlRow) :=
  if v.isEmpty then .error "empty vector"
  else .ok (sqlUpsertRow rows ⟨i, md.command, md.filename, md.fileMtime, encodeVector v, md⟩)

/-- The `SQLiteStore` state the cache validator reads: the three provenance
metadata values (as stored, i.e. as strings; `NewSQLiteStore` always writes
them) and the `embeddings` rows. -/
structure SqlStore where
  metaProvider : String
  metaModel : String
  metaDims : String
  rows : List SqlRow
deriving DecidableEq, Repr

/-! ## Semantic matcher (semantic.go) -/

/-- An embedding provider call: `Embed(ctx, text)`. -/
abbrev Emb := String → Except String (List Nat)

structure SemState where
  store : List VEntry
  indexed : Bool
deriving DecidableEq, Repr

def appendSpaced (s : String) (items : List String) : String :=
  items.foldl (fun acc x => acc ++ " " ++ x) s

/-- `SemanticMatcher.buildSearchText`: command, aliases, keywords, example
user requests, space-joined in that order. -/
def buildSearchText (doc : CommandDoc) : String :=
  appendSpaced (appendSpaced (appendSpaced doc.command doc.aliases) doc.keywords)
    (doc.examples.map (fun e => e.userRequest))

/-- The per-document loop of `SemanticMatcher.Index` over a generic vector
store (`add` is the store's `Add`): embed each document's search text and
store it under id `"cmd_" ++ command` with metadata
`{command, filename, file_mtime}`; the first failure aborts the loop.
Returns (store state, error if any, number of `Embed` calls made). -/
def indexLoop {σ : Type} (add : σ → String → List Nat → Meta → Except String σ)
    (emb : Emb) : List CommandDoc → σ → σ × Option String × Nat
  | [], st => (st, none, 0)
  | d :: rest, st =>
      match emb (buildSearchText d) with
      | .error e => (st, some ("failed to embed doc " ++ d.command ++ ": " ++ e), 1)
      | .ok v =>
          match add st ("cmd_" ++ d.command) v ⟨d.command, d.filename, d.updatedAt⟩ with
          | .error e => (st, some ("failed to store embedding for " ++ d.command ++ ": " ++ e), 1)
          | .ok st2 =>
              let p := indexLoop add emb rest st2
              (p.1, p.2.1, p.2.2 + 1)

/-- `SemanticMatcher.Index` (over the in-memory store): clear the store,
run the loop; only a fully successful pass sets `indexed` (a failing pass
leaves the previous `indexed` flag untouched and the store holding just the
prefix added before the failure). -/
def semIndex (emb : Emb) (st : SemState) (docs : List CommandDoc) :
    SemState × Option String × Nat :=
  let p := indexLoop msAdd emb docs []
  match p.2.1 with
  | some e => (⟨p.1, st.indexed⟩, some e, p.2.2)
  | none => (⟨p.1, true⟩, none, p.2.2)

/-- `SemanticMatcher.Search`: fails before any successful index; otherwise
embeds the query, searches the store and returns the scores — with a `nil`
document list ("For now, return empty since we need to map back to docs" in
the source).  The second component counts `Embed` calls. -/
def semSearch (emb : Emb) (sortRes : List SearchResult → List SearchResult)
    (st : SemState) (query : String) (topK : Nat) :
    Except String (List CommandDoc × List Nat) × Nat :=
  if !st.indexed then (.error "not indexed", 0)
  else
    match emb query with
    | .error e => (.error ("failed to embed query: " ++ e), 1)
    | .ok qv =>
        match msSearch sortRes st.store qv topK with
        | .error e => (.error ("search failed: " ++ e), 1)
        | .ok results => (.ok ([], results.map (fun r => r.score)), 1)

/-! ## Hybrid matcher (semantic.go) -/

structure HybridState where
  docs : List CommandDoc
  sem : SemState
  strategy : String
  threshold : Int
deriving DecidableEq, Repr

/-- `HybridMatcher.FindRelevantDocs`: keyword-only, semantic-only, or hybrid
(keyword fast path; fall back to semantic only on zero keyword results and an
indexed semantic matcher; swallow semantic errors/empties in favour of the
keyword result).  The `threshold` field exists in the source but is never
consulted.  The second component counts `Embed` calls. -/
def hybridFind (emb : Emb) (sortKW : List ScoredDoc → List ScoredDoc)
    (sortRes : List SearchResult → List SearchResult)
    (h : HybridState) (request : String) (maxDocs : Nat) :
    Except String (List CommandDoc) × Nat :=
  if h.strategy = "keyword" then (.ok (findRelevantDocs sortKW h.docs request maxDocs), 0)
  else if h.strategy = "semantic" then
    match semSearch emb sortRes h.sem request maxDocs with
    | (.error e, n) => (.error e, n)
    | (.ok (docs, _), n) => (.ok docs, n)
  else if h.strategy = "hybrid" then
    let kw := findRelevantDocs sortKW h.docs request maxDocs
    if 0 < kw.length then (.ok kw, 0)
    else if h.sem.indexed then
      match semSearch emb sortRes h.sem request maxDocs with
      | (.ok (docs, _), n) => if 0 < docs.length then (.ok docs, n) else (.ok kw, n)
      | (.error _, n) => (.ok kw, n)
    else (.ok kw, 0)
  else (.ok (findRelevantDocs sortKW h.docs request maxDocs), 0)

/-! ## Batch parsing (`Parser.ParseAll`, parser.go)

`Parser.Parse` performs file I/O (open, stat, scan) before its pure parsing
steps, so `ParseAll` is embedded relative to an arbitrary per-file outcome
function `parse : path → Except error CommandDoc`. -/

def parseAllLoop (parse : String → Except String CommandDoc) :
    List String → List CommandDoc × List String
  | [] => ([], [])
  | p :: rest =>
      let q := parseAllLoop parse rest
      match parse p with
      | .error e => (q.1, (p ++ ": " ++ e) :: q.2)
      | .ok d => (d :: q.1, q.2)

/-- `Parser.ParseAll`: parse every file, collect the successes in order,
collect a `"path: error"` line per failure, and return the docs together
with an aggregate error exactly when at least one file failed. -/
def parseAll (parse : String → Except String CommandDoc) (paths : List String) :
    List CommandDoc × Option String :=
  let q := parseAllLoop parse paths
  if q.2.isEmpty then (q.1, none)
  else (q.1, some ("failed to parse some files:\n" ++ String.intercalate "\n" q.2))

/-! ## Cache validator (`SQLiteStore.IsValid`, sqlite.go)

`IsValid` reads the three provenance metadata values (always present: both
constructors write them), builds the `filename → UpdatedAt` map over the
current documents (later duplicates overwrite, as Go map assignment does),
walks the cached rows checking existence and second-granularity mtime
equality, then checks that no current filename is missing from the cache.
The Go code iterates the expectation map in unspecified order for the last
check; the model takes the first such document in input order. -/

/-- The `expectedFiles` map: the `UpdatedAt` of the last document (in input
order) with the given filename. -/
def expectedMtime (docs : List CommandDoc) (fn : String) : Option Int :=
  (docs.reverse.find? (fun d => d.filename = fn)).map (fun d => d.updatedAt)

/-- Walk of the cached rows: report the first deleted or modified file. -/
def rowsCheck (docs : List CommandDoc) : List SqlRow → Option String
  | [] => none
  | r :: rest =>
      match expectedMtime docs r.filename with
      | none => some ("file deleted: " ++ r.filename)
      | some t => if t ≠ r.fileMtime then some ("file modified: " ++ r.filename)
          else rowsCheck docs rest

/-- Check for a current file absent from the cache. -/
def newFileCheck (rows : List SqlRow) (docs : List CommandDoc) : Option String :=
  (docs.find? (fun d => !(rows.any (fun r => r.filename = d.filename)))).map
    (fun d => "new file added: " ++ d.filename)

/-- `SQLiteStore.IsValid`. -/
def isValid (st : SqlStore) (docs : List CommandDoc) (provider model : String)
    (dims : Nat) : Bool × String :=
  if st.metaProvider ≠ provider then
    (false, "provider changed: " ++ st.metaProvider ++ " → " ++ provider)
  else if st.metaModel ≠ model then
    (false, "model changed: " ++ st.metaModel ++ " → " ++ model)
  else if st.metaDims ≠ toString dims then
    (false, "dimensions changed: " ++ st.metaDims ++ " → " ++ toString dims)
  else
    match rowsCheck docs st.rows with
    | some reason => (false, reason)
    | none =>
        match newFileCheck st.rows docs with
        | some reason => (false, reason)
        | none => (true, "")

/-- `SemanticMatcher.Index` running against a `SQLiteStore` (the same loop,
with the SQLite `Add`): `Clear` empties the `embeddings` table, the metadata
table is untouched. -/
def sqlIndex (emb : Emb) (st : SqlStore) (docs : List CommandDoc) :
    SqlStore × Option String × Nat :=
  let p := indexLoop sqlAdd emb docs []
  (⟨st.metaProvider, st.metaModel, st.metaDims, p.1⟩, p.2.1, p.2.2)

/-- C9 claim side: the documents of the successfully parsed files, in input
order. -/
def claimParsedDocs (parse : String → Except String CommandDoc) (paths : List String) :
    List CommandDoc :=
  paths.filterMap (fun p => (parse p).toOption)

/-- C9 claim side: one `"path: error"` line per failing file, in input order. -/
def claimFailLines (parse : String → Except String CommandDoc) (paths : List String) :
    List String :=
  paths.filterMap (fun p =>
    match parse p with
    | .error e => some (p ++ ": " ++ e)
    | .ok _ => none)

theorem parseAllLoop_eq (parse : String → Except String CommandDoc) (paths : List String) :
    parseAllLoop parse paths = (claimParsedDocs parse paths, claimFailLines parse paths) := by
  induction paths with
  | nil => rfl
  | cons p rest ih =>
      simp only [parseAllLoop, ih, claimParsedDocs, claimFailLines, List.filterMap_cons]
      cases hp : parse p <;> simp [Except.toOption, hp, claimParsedDocs, claimFailLines]

/-- C9: `Parser.ParseAll` collects partial results — it returns exactly the
documents of the files that parsed, a failure on one file never removes
another file's document, and it returns the aggregate error (listing every
failing file with its error) exactly when at least one file failed. -/
theorem parseAll_partial_results (parse : String → Except String CommandDoc)
    (paths : List String) :
    (parseAll parse paths).1 = claimParsedDocs parse paths
    ∧ ((parseAll parse paths).2 = none ↔ claimFailLines parse paths = [])
    ∧ (claimFailLines parse paths ≠ [] →
        (parseAll parse paths).2
          = some ("failed to parse some files:\n"
              ++ String.intercalate "\n" (claimFailLines parse paths)))
    ∧ (∀ p e, p ∈ paths → parse p = .error e
        → (p ++ ": " ++ e) ∈ claimFailLines parse paths) := by
  refine ⟨?_, ?_, ?_, ?_⟩
  · simp [parseAll, parseAllLoop_eq]
    split <;> rfl
  · simp only [parseAll, parseAllLoop_eq]
    rcases h : claimFailLines parse paths with _ | ⟨a, rest⟩ <;> simp [h]
  · intro h
    simp only [parseAll, parseAllLoop_eq]
    rcases hh : claimFailLines parse paths with _ | ⟨a, rest⟩
    · exact absurd hh h
    · simp [hh]
  · intro p e hp hpe
    refine List.mem_filterMap.mpr ⟨p, hp, ?_⟩
    simp [hpe]

/-- C2: under the hybrid strategy, a nonempty keyword result is returned
as-is with zero `Embed` calls (fast path); with an empty keyword result
semantic search is attempted only when the semantic matcher is indexed
(exactly one `Embed` call), and whatever it does — error, empty, or anything
else — the (empty) keyword result is returned, never an error. -/
theorem hybridFind_policy (emb : Emb) (sortKW : List ScoredDoc → List ScoredDoc)
    (sortRes : List SearchResult → List SearchResult)
    (docs : List CommandDoc) (sem : SemState) (thr : Int)
    (request : String) (maxDocs : Nat) :
    (findRelevantDocs sortKW docs request maxDocs ≠ []
      → hybridFind emb sortKW sortRes ⟨docs, sem, "hybrid", thr⟩ request maxDocs
          = (.ok (findRelevantDocs sortKW docs request maxDocs), 0))
    ∧ (findRelevantDocs sortKW docs request maxDocs = [] → sem.indexed = false
      → hybridFind emb sortKW sortRes ⟨docs, sem, "hybrid", thr⟩ request maxDocs
          = (.ok [], 0))
    ∧ (findRelevantDocs sortKW docs request maxDocs = [] → sem.indexed = true
      → hybridFind emb sortKW sortRes ⟨docs, sem, "hybrid", thr⟩ request maxDocs
          = (.ok [], 1)) := by
  refine ⟨?_, ?_, ?_⟩
  · intro hkw
    simp only [hybridFind]
    rw [if_neg (by decide), if_neg (by decide), if_pos trivial,
      if_pos (List.length_pos.mpr hkw)]
  · intro hkw hidx
    simp only [hybridFind]
    rw [if_neg (by decide), if_neg (by decide), if_pos trivial]
    simp [hkw, hidx]
  · intro hkw hidx
    simp only [hybridFind]
    rw [if_neg (by decide), if_neg (by decide), if_pos trivial]
    simp only [hkw, List.length_nil, lt_irrefl, if_false, hidx, if_true]
    rcases hemb : emb request with e | qv
    · rw [show semSearch emb sortRes sem request maxDocs
          = (.error ("failed to embed query: " ++ e), 1) by
        simp [semSearch, hidx, hemb]]
    · rcases hms : msSearch sortRes sem.store qv maxDocs with e2 | res
      · rw [show semSearch emb sortRes sem request maxDocs
            = (.error ("search failed: " ++ e2), 1) by
          simp [semSearch, hidx, hemb, hms]]
      · rw [show semSearch emb sortRes sem request maxDocs
            = (.ok ([], res.map (fun r => r.score)), 1) by
          simp [semSearch, hidx, hemb, hms]]
        rfl

theorem indexLoop_append_fail (emb : Emb) (pre post : List CommandDoc)
    (d : CommandDoc) (e : String)
    (hpre : ∀ x ∈ pre, ∃ v, emb (buildSearchText x) = .ok v ∧ v.isEmpty = false)
    (hfail : emb (buildSearchText d) = .error e) :
    ∀ st0 : List VEntry,
      (indexLoop msAdd emb (pre ++ d :: post) st0).2.1
          = some ("failed to embed doc " ++ d.command ++ ": " ++ e)
      ∧ (indexLoop msAdd emb (pre ++ d :: post) st0).2.2 = pre.length + 1 := by
  induction pre with
  | nil =>
      intro st0
      simp [indexLoop, hfail]
  | cons x xs ih =>
      intro st0
      obtain ⟨v, hv, hvne⟩ := hpre x (List.mem_cons_self _ _)
      have hxs : ∀ y ∈ xs, ∃ v, emb (buildSearchText y) = .ok v ∧ v.isEmpty = false :=
        fun y hy => hpre y (List.mem_cons_of_mem _ hy)
      have hadd : msAdd st0 ("cmd_" ++ x.command) v ⟨x.command, x.filename, x.updatedAt⟩
          = .ok (upsertEntry st0 ⟨"cmd_" ++ x.command, v, ⟨x.command, x.filename, x.updatedAt⟩⟩) := by
        simp [msAdd, hvne]
      obtain ⟨h1, h2⟩ := ih hxs
        (upsertEntry st0 ⟨"cmd_" ++ x.command, v, ⟨x.command, x.filename, x.updatedAt⟩⟩)
      simp only [List.cons_append, indexLoop, hv, hadd, List.length_cons]
      exact ⟨h1, congrArg (· + 1) h2⟩

/-- C6: when embedding one document fails (after any prefix of documents that
embed fine), `SemanticMatcher.Index` aborts — exactly the documents before
the failing one were embedded — returning an error naming the failing
document; starting from a freshly constructed (never indexed) matcher, the
matcher stays unindexed and a subsequent `Search` fails with the
"not indexed" error instead of serving any partially built index. -/
theorem semIndex_abort (emb : Emb) (st : SemState) (pre post : List CommandDoc)
    (d : CommandDoc) (e : String)
    (hst : st.indexed = false)
    (hpre : ∀ x ∈ pre, ∃ v, emb (buildSearchText x) = .ok v ∧ v.isEmpty = false)
    (hfail : emb (buildSearchText d) = .error e) :
    (semIndex emb st (pre ++ d :: post)).2.1
        = some ("failed to embed doc " ++ d.command ++ ": " ++ e)
    ∧ (semIndex emb st (pre ++ d :: post)).1.indexed = false
    ∧ (semIndex emb st (pre ++ d :: post)).2.2 = pre.length + 1
    ∧ (∀ (sortRes : List SearchResult → List SearchResult) (query : String) (topK : Nat),
        (semSearch emb sortRes (semIndex emb st (pre ++ d :: post)).1 query topK)
          = (.error "not indexed", 0)) := by
  obtain ⟨h1, h2⟩ := indexLoop_append_fail emb pre post d e hpre hfail []
  have hsem : semIndex emb st (pre ++ d :: post)
      = (⟨(indexLoop msAdd emb (pre ++ d :: post) []).1, st.indexed⟩,
         some ("failed to embed doc " ++ d.command ++ ": " ++ e),
         (indexLoop msAdd emb (pre ++ d :: post) []).2.2) := by
    simp only [semIndex, h1]
  rw [hsem]
  refine ⟨rfl, hst, h2, ?_⟩
  intro sortRes query topK
  simp [semSearch, hst]

/-- Witness for C6: an embedder that fails on the very first document. -/
theorem semIndex_abort_witness :
    ((fun _ => Except.error "connection refused" : Emb) (buildSearchText cexDocA)
        = .error "connection refused")
    ∧ ((semIndex (fun _ => .error "connection refused") ⟨[], false⟩ ([] ++ cexDocA :: [])).2.1
          = some ("failed to embed doc " ++ cexDocA.command ++ ": " ++ "connection refused")
        ∧ (semIndex (fun _ => .error "connection refused") ⟨[], false⟩ ([] ++ cexDocA :: [])).1.indexed = false
        ∧ (semIndex (fun _ => .error "connection refused") ⟨[], false⟩ ([] ++ cexDocA :: [])).2.2
            = ([] : List CommandDoc).length + 1
        ∧ (∀ (sortRes : List SearchResult → List SearchResult) (query : String) (topK : Nat),
            (semSearch (fun _ => .error "connection refused") sortRes
                (semIndex (fun _ => .error "connection refused") ⟨[], false⟩
                  ([] ++ cexDocA :: [])).1 query topK)
              = (.error "not indexed", 0))) :=
  ⟨rfl, semIndex_abort (fun _ => .error "connection refused") ⟨[], false⟩ [] [] cexDocA
    "connection refused" rfl (by simp) rfl⟩

/-- An embedder that answers every text with the unit vector `[1.0f]`. -/
def unitEmb : Emb := fun _ => .ok [1065353216]

/-- An indexed semantic-matcher state holding one stored document vector. -/
def oneDocSem : SemState :=
  ⟨[⟨"cmd_alpha", [1065353216], ⟨"alpha", "a.md", 0⟩⟩], true⟩

/-- C1 (code bug): `SemanticMatcher.Search` never returns the matching
documents.  On an indexed matcher whose store holds a perfectly matching
vector (cosine similarity exactly 1.0), `Search` succeeds and returns the
similarity scores but a `nil` document list — the source returns
`nil, scores, nil` with the comment "For now, return empty since we need to
map back to docs" — and consequently the semantic-only strategy of
`HybridMatcher.FindRelevantDocs` returns no documents either. -/
theorem semSearch_returns_no_docs :
    semSearch unitEmb id oneDocSem "alpha" 3 = (.ok ([], [1065353216]), 1)
    ∧ oneDocSem.store ≠ []
    ∧ hybridFind unitEmb stableSort id ⟨[], oneDocSem, "semantic", 0⟩ "alpha" 3
        = (.ok [], 1) :=
  ⟨by rfl, by decide, by rfl⟩

def lookupEntry (st : List VEntry) (i : String) : Option VEntry :=
  st.find? (fun e => e.id = i)

/-- The vector the embedder returns for a document's search text (defined
when the call succeeds). -/
def embVec (emb : Emb) (d : CommandDoc) : List Nat :=
  ((emb (buildSearchText d)).toOption).getD []

/-- The store entry `SemanticMatcher.Index` writes for a document. -/
def entryOf (emb : Emb) (d : CommandDoc) : VEntry :=
  ⟨"cmd_" ++ d.command, embVec emb d, ⟨d.command, d.filename, d.updatedAt⟩⟩

/-- The store contents after a fully successful index pass. -/
def indexStore (emb : Emb) (docs : List CommandDoc) (s : List VEntry) : List VEntry :=
  docs.foldl (fun acc d => upsertEntry acc (entryOf emb d)) s

theorem cmdPrefix_inj : Function.Injective (fun c : String => "cmd_" ++ c) := by
  intro a b h
  have h2 : ("cmd_" ++ a).data = ("cmd_" ++ b).data := congrArg String.data h
  rw [String.data_append, String.data_append] at h2
  have h3 := List.append_cancel_left h2
  cases a
  cases b
  exact congrArg String.mk h3

theorem upsertEntry_ids (s : List VEntry) (e : VEntry) :
    (upsertEntry s e).map (fun x => x.id)
      = if e.id ∈ s.map (fun x => x.id) then s.map (fun x => x.id)
        else s.map (fun x => x.id) ++ [e.id] := by
  induction s with
  | nil => simp [upsertEntry]
  | cons x xs ih =>
      by_cases h : x.id = e.id
      · simp [upsertEntry, h]
      · simp only [upsertEntry, if_neg h, List.map_cons, ih, List.mem_cons]
        by_cases h2 : e.id ∈ xs.map (fun x => x.id)
        · simp [h2, Ne.symm h]
        · simp [h2, Ne.symm h]

theorem upsertEntry_find_self (s : List VEntry) (e : VEntry) :
    (upsertEntry s e).find? (fun x => x.id = e.id) = some e := by
  induction s with
  | nil => simp [upsertEntry]
  | cons x xs ih =>
      by_cases h : x.id = e.id
      · simp [upsertEntry, h]
      · simp [upsertEntry, h, ih]

theorem upsertEntry_find_other (s : List VEntry) (e : VEntry) (j : String) (hj : j ≠ e.id) :
    (upsertEntry s e).find? (fun x => x.id = j) = s.find? (fun x => x.id = j) := by
  induction s with
  | nil => simp [upsertEntry, Ne.symm hj]
  | cons x xs ih =>
      by_cases h : x.id = e.id
      · have hx : ¬(x.id = j) := by rw [h]; exact Ne.symm hj
        simp [upsertEntry, h, hx, Ne.symm hj]
      · by_cases hx : x.id = j
        · simp [upsertEntry, h, hx, hj]
        · simp [upsertEntry, h, hx, ih]

theorem upsertEntry_length (s : List VEntry) (e : VEntry) :
    (upsertEntry s e).length
      = if s.any (fun x => x.id = e.id) then s.length else s.length + 1 := by
  induction s with
  | nil => simp [upsertEntry]
  | cons x xs ih =>
      by_cases h : x.id = e.id
      · simp [upsertEntry, h]
      · simp only [upsertEntry, if_neg h, List.length_cons, ih, List.any_cons]
        by_cases h2 : xs.any (fun x => x.id = e.id) <;> simp [h, h2]

theorem indexLoop_success (emb : Emb) (docs : List CommandDoc)
    (hok : ∀ x ∈ docs, ∃ v, emb (buildSearchText x) = .ok v ∧ v.isEmpty = false) :
    ∀ s, indexLoop msAdd emb docs s = (indexStore emb docs s, none, docs.length) := by
  induction docs with
  | nil => intro s; rfl
  | cons d rest ih =>
      intro s
      obtain ⟨v, hv, hvne⟩ := hok d (List.mem_cons_self _ _)
      have hrest : ∀ x ∈ rest, ∃ v, emb (buildSearchText x) = .ok v ∧ v.isEmpty = false :=
        fun x hx => hok x (List.mem_cons_of_mem _ hx)
      have hentry : entryOf emb d
          = ⟨"cmd_" ++ d.command, v, ⟨d.command, d.filename, d.updatedAt⟩⟩ := by
        simp [entryOf, embVec, hv, Except.toOption]
      have hadd : msAdd s ("cmd_" ++ d.command) v ⟨d.command, d.filename, d.updatedAt⟩
          = .ok (upsertEntry s (entryOf emb d)) := by
        simp [msAdd, hvne, hentry]
      simp only [indexLoop, hv, hadd, ih hrest, indexStore, List.foldl_cons, List.length_cons]

theorem upsert_ids_nodup (s : List VEntry) (e : VEntry)
    (h : (s.map (fun x => x.id)).Nodup) :
    ((upsertEntry s e).map (fun x => x.id)).Nodup := by
  rw [upsertEntry_ids]
  by_cases h2 : e.id ∈ s.map (fun x => x.id)
  · simpa [h2] using h
  · simp only [if_neg h2]
    rw [List.nodup_append]
    exact ⟨h, List.nodup_singleton _, by simpa [List.disjoint_singleton] using h2⟩

theorem upsert_ids_toFinset (s : List VEntry) (e : VEntry) :
    ((upsertEntry s e).map (fun x => x.id)).toFinset
      = insert e.id (s.map (fun x => x.id)).toFinset := by
  rw [upsertEntry_ids]
  by_cases h2 : e.id ∈ s.map (fun x => x.id)
  · rw [if_pos h2]
    exact (Finset.insert_eq_self.mpr (List.mem_toFinset.mpr h2)).symm
  · rw [if_neg h2]
    simp [List.toFinset_append, Finset.union_comm, Finset.insert_eq]

theorem indexStore_ids (emb : Emb) (docs : List CommandDoc) :
    ∀ s, (s.map (fun x => x.id)).Nodup →
      ((indexStore emb docs s).map (fun x => x.id)).Nodup
      ∧ ((indexStore emb docs s).map (fun x => x.id)).toFinset
          = (s.map (fun x => x.id)).toFinset
            ∪ (docs.map (fun d => "cmd_" ++ d.command)).toFinset := by
  induction docs with
  | nil => intro s h; exact ⟨h, by simp [indexStore]⟩
  | cons d rest ih =>
      intro s h
      have hstep := ih (upsertEntry s (entryOf emb d)) (upsert_ids_nodup s _ h)
      have hfold : indexStore emb (d :: rest) s
          = indexStore emb rest (upsertEntry s (entryOf emb d)) := by
        simp [indexStore, List.foldl_cons]
      refine ⟨by rw [hfold]; exact hstep.1, ?_⟩
      rw [hfold, hstep.2, upsert_ids_toFinset]
      simp only [List.map_cons, List.toFinset_cons]
      rw [Finset.insert_union, Finset.union_insert]
      rfl

theorem indexStore_count (emb : Emb) (docs : List CommandDoc) :
    (indexStore emb docs []).length = (docs.map (fun d => d.command)).dedup.length := by
  obtain ⟨hnd, hset⟩ := indexStore_ids emb docs [] (by simp)
  have h1 : (indexStore emb docs []).length
      = ((indexStore emb docs []).map (fun x => x.id)).length := (List.length_map _ _).symm
  rw [h1, ← List.toFinset_card_of_nodup hnd, hset]
  simp only [List.map_nil, List.toFinset_nil, Finset.empty_union]
  rw [List.card_toFinset]
  rw [show docs.map (fun d => "cmd_" ++ d.command)
      = (docs.map (fun d => d.command)).map (fun c => "cmd_" ++ c) by rw [List.map_map]; rfl]
  rw [List.dedup_map_of_injective cmdPrefix_inj, List.length_map]

theorem cmdPrefix_eq_iff (a b : String) : ("cmd_" ++ a = "cmd_" ++ b) ↔ a = b :=
  ⟨fun h => cmdPrefix_inj h, fun h => by rw [h]⟩

theorem indexStore_lookup (emb : Emb) (docs : List CommandDoc) (c : String) :
    ∀ s, lookupEntry (indexStore emb docs s) ("cmd_" ++ c)
      = match docs.reverse.find? (fun d => d.command = c) with
        | some d => some (entryOf emb d)
        | none => lookupEntry s ("cmd_" ++ c) := by
  induction docs with
  | nil => intro s; rfl
  | cons d rest ih =>
      intro s
      have hfold : indexStore emb (d :: rest) s
          = indexStore emb rest (upsertEntry s (entryOf emb d)) := by
        simp [indexStore, List.foldl_cons]
      rw [hfold, ih]
      have hrev : (d :: rest).reverse = rest.reverse ++ [d] := by simp
      rw [hrev, List.find?_append]
      rcases hfind : rest.reverse.find? (fun d => d.command = c) with _ | d2
      · by_cases hc : d.command = c
        · have h1 := upsertEntry_find_self s (entryOf emb d)
          have hkey : "cmd_" ++ c = (entryOf emb d).id := by simp [entryOf, hc]
          simp only [hfind, Option.none_or, List.find?_singleton]
          rw [if_pos (by simp [hc])]
          unfold lookupEntry
          rw [hkey]
          exact h1
        · have hkey : "cmd_" ++ c ≠ (entryOf emb d).id := by
            simp only [entryOf]
            intro hcontra
            exact hc ((cmdPrefix_eq_iff c d.command).mp hcontra).symm
          have h1 := upsertEntry_find_other s (entryOf emb d) ("cmd_" ++ c) hkey
          simp only [hfind, Option.none_or, List.find?_singleton]
          rw [if_neg (by simp [hc])]
          unfold lookupEntry
          exact h1
      · simp [hfind]

theorem sqlUpsertRow_find_self (rows : List SqlRow) (r : SqlRow) :
    (sqlUpsertRow rows r).find? (fun x => x.id = r.id) = some r := by
  induction rows with
  | nil => simp [sqlUpsertRow]
  | cons x xs ih =>
      by_cases h : x.id = r.id
      · simp [sqlUpsertRow, h]
      · simp [sqlUpsertRow, h, ih]

theorem sqlUpsertRow_length (rows : List SqlRow) (r : SqlRow) :
    (sqlUpsertRow rows r).length
      = if rows.any (fun x => x.id = r.id) then rows.length else rows.length + 1 := by
  induction rows with
  | nil => simp [sqlUpsertRow]
  | cons x xs ih =>
      by_cases h : x.id = r.id
      · simp [sqlUpsertRow, h]
      · simp only [sqlUpsertRow, if_neg h, List.length_cons, ih, List.any_cons]
        by_cases h2 : xs.any (fun x => x.id = r.id) <;> simp [h, h2]

/-- C10: `SemanticMatcher.Index` keys every stored vector by
`"cmd_" ++ command`, and both stores' `Add` is an upsert; hence on a fully
successful index the entry stored under a command's key is exactly the one
built from the LAST document with that command name (later documents
silently overwrite earlier ones), and the store's `Count` equals the number
of distinct command names, not the number of documents. -/
theorem semIndex_upsert_dedup (emb : Emb) (st : SemState) (docs : List CommandDoc)
    (hok : ∀ x ∈ docs, ∃ v, emb (buildSearchText x) = .ok v ∧ v.isEmpty = false) :
    (semIndex emb st docs).2.1 = none
    ∧ (semIndex emb st docs).1.indexed = true
    ∧ (semIndex emb st docs).1.store.length
        = (docs.map (fun d => d.command)).dedup.length
    ∧ (∀ c, lookupEntry (semIndex emb st docs).1.store ("cmd_" ++ c)
        = (docs.reverse.find? (fun d => d.command = c)).map (entryOf emb))
    ∧ (∀ stx i v md, v.isEmpty = false →
        msAdd stx i v md = .ok (upsertEntry stx ⟨i, v, md⟩)
        ∧ (upsertEntry stx ⟨i, v, md⟩).find? (fun x => x.id = i) = some ⟨i, v, md⟩
        ∧ (upsertEntry stx ⟨i, v, md⟩).length
            = (if stx.any (fun x => x.id = i) then stx.length else stx.length + 1))
    ∧ (∀ rows i v md, v.isEmpty = false →
        sqlAdd rows i v md
            = .ok (sqlUpsertRow rows ⟨i, md.command, md.filename, md.fileMtime, encodeVector v, md⟩)
        ∧ (sqlUpsertRow rows ⟨i, md.command, md.filename, md.fileMtime, encodeVector v, md⟩).find?
            (fun x => x.id = i)
              = some ⟨i, md.command, md.filename, md.fileMtime, encodeVector v, md⟩
        ∧ (sqlUpsertRow rows ⟨i, md.command, md.filename, md.fileMtime, encodeVector v, md⟩).length
            = (if rows.any (fun x => x.id = i) then rows.length else rows.length + 1)) := by
  have hloop := indexLoop_success emb docs hok []
  have hsem : semIndex emb st docs = (⟨indexStore emb docs [], true⟩, none, docs.length) := by
    simp [semIndex, hloop]
  rw [hsem]
  refine ⟨rfl, rfl, indexStore_count emb docs, ?_, ?_, ?_⟩
  · intro c
    rw [show (⟨indexStore emb docs [], true⟩ : SemState).store = indexStore emb docs [] from rfl]
    rw [indexStore_lookup emb docs c []]
    rcases rest : docs.reverse.find? (fun d => d.command = c) with _ | d2 <;> simp [rest, lookupEntry]
  · intro stx i v md hv
    exact ⟨by simp [msAdd, hv], upsertEntry_find_self stx ⟨i, v, md⟩,
      upsertEntry_length stx ⟨i, v, md⟩⟩
  · intro rows i v md hv
    exact ⟨by simp [sqlAdd, hv],
      sqlUpsertRow_find_self rows ⟨i, md.command, md.filename, md.fileMtime, encodeVector v, md⟩,
      sqlUpsertRow_length rows ⟨i, md.command, md.filename, md.fileMtime, encodeVector v, md⟩⟩

def cexDocA3 : CommandDoc :=
  { cexDocA with filename := "a2.md", updatedAt := 7 }

/-- Witness for C10: two documents sharing the command name `alpha` — the
store ends with a single entry, the one built from the later document. -/
theorem semIndex_upsert_dedup_witness :
    (semIndex unitEmb ⟨[], false⟩ [cexDocA, cexDocA3]).2.1 = none
    ∧ (semIndex unitEmb ⟨[], false⟩ [cexDocA, cexDocA3]).1.store.length = 1
    ∧ lookupEntry (semIndex unitEmb ⟨[], false⟩ [cexDocA, cexDocA3]).1.store ("cmd_" ++ "alpha")
        = some (entryOf unitEmb cexDocA3) := by
  have h := semIndex_upsert_dedup unitEmb ⟨[], false⟩ [cexDocA, cexDocA3]
    (fun x _ => ⟨[1065353216], rfl, rfl⟩)
  refine ⟨h.1, ?_, ?_⟩
  · rw [h.2.2.1]
    decide
  · exact (h.2.2.2.1 "alpha").trans (by rfl)

theorem rowsCheck_none_iff (docs : List CommandDoc) (rows : List SqlRow) :
    rowsCheck docs rows = none
      ↔ ∀ r ∈ rows, expectedMtime docs r.filename = some r.fileMtime := by
  induction rows with
  | nil => simp [rowsCheck]
  | cons r rest ih =>
      rcases he : expectedMtime docs r.filename with _ | t
      · simp [rowsCheck, he]
      · by_cases ht : t = r.fileMtime
        · subst ht
          simp [rowsCheck, he, ih]
        · rw [show rowsCheck docs (r :: rest)
              = some ("file modified: " ++ r.filename) by simp [rowsCheck, he, ht]]
          constructor
          · intro hcontra
            cases hcontra
          · intro h
            have h2 := h r (List.mem_cons_self _ _)
            rw [he] at h2
            exact absurd (Option.some.inj h2) ht

theorem newFileCheck_none_iff (rows : List SqlRow) (docs : List CommandDoc) :
    newFileCheck rows docs = none
      ↔ ∀ d ∈ docs, ∃ r ∈ rows, r.filename = d.filename := by
  simp only [newFileCheck, Option.map_eq_none', List.find?_eq_none]
  constructor
  · intro h d hd
    have h2 := h d hd
    simp only [Bool.not_eq_true', Bool.not_eq_false] at h2
    obtain ⟨r, hr, hrf⟩ := List.any_eq_true.mp h2
    exact ⟨r, hr, by simpa using hrf⟩
  · intro h d hd
    obtain ⟨r, hr, hrf⟩ := h d hd
    simp only [Bool.not_eq_true', Bool.not_eq_false]
    exact List.any_eq_true.mpr ⟨r, hr, by simpa using hrf⟩

theorem expectedMtime_eq_some_iff (docs : List CommandDoc) (fn : String) (t : Int)
    (hnd : (docs.map (fun d => d.filename)).Nodup) :
    expectedMtime docs fn = some t ↔ ∃ d ∈ docs, d.filename = fn ∧ d.updatedAt = t := by
  constructor
  · intro h
    simp only [expectedMtime, Option.map_eq_some'] at h
    obtain ⟨d, hd, ht⟩ := h
    have hmem : d ∈ docs := List.mem_reverse.mp (List.mem_of_find?_eq_some hd)
    have hfn : d.filename = fn := by simpa using List.find?_some hd
    exact ⟨d, hmem, hfn, ht⟩
  · intro hex
    obtain ⟨d, hd, hfn, ht⟩ := hex
    have hsome : (docs.reverse.find? (fun x => x.filename = fn)).isSome = true := by
      rw [List.find?_isSome]
      exact ⟨d, List.mem_reverse.mpr hd, by simpa using hfn⟩
    obtain ⟨d2, hd2⟩ := Option.isSome_iff_exists.mp hsome
    have hmem2 : d2 ∈ docs := List.mem_reverse.mp (List.mem_of_find?_eq_some hd2)
    have hfn2 : d2.filename = fn := by simpa using List.find?_some hd2
    have heq : d2 = d := List.inj_on_of_nodup_map hnd hmem2 hd (by rw [hfn2, hfn])
    subst heq
    unfold expectedMtime
    rw [hd2]
    simp [ht]

/-- The validity test of `IsValid`, as the claim states it (helper for C4). -/
theorem isValid_eq_true_iff (st : SqlStore) (docs : List CommandDoc)
    (p m : String) (dm : Nat)
    (hndf : (docs.map (fun d => d.filename)).Nodup) :
    isValid st docs p m dm = (true, "")
      ↔ (st.metaProvider = p ∧ st.metaModel = m ∧ st.metaDims = toString dm
          ∧ (∀ r ∈ st.rows, ∃ d ∈ docs, d.filename = r.filename ∧ d.updatedAt = r.fileMtime)
          ∧ (∀ d ∈ docs, ∃ r ∈ st.rows, r.filename = d.filename)) := by
  by_cases hp : st.metaProvider = p
  case neg => simp [isValid, hp]
  by_cases hm : st.metaModel = m
  case neg => simp [isValid, hp, hm]
  by_cases hd : st.metaDims = toString dm
  case neg => simp [isValid, hp, hm, hd]
  have h1 : isValid st docs p m dm
      = (match rowsCheck docs st.rows with
        | some reason => (false, reason)
        | none =>
            match newFileCheck st.rows docs with
            | some reason => (false, reason)
            | none => (true, "")) := by
    simp [isValid, hp, hm, hd]
  rw [h1]
  rcases hr : rowsCheck docs st.rows with _ | reason
  · rcases hn : newFileCheck st.rows docs with _ | reason2
    · simp only []
      constructor
      · intro _
        refine ⟨hp, hm, hd, ?_, ?_⟩
        · intro r hrr
          exact (expectedMtime_eq_some_iff docs r.filename r.fileMtime hndf).mp
            ((rowsCheck_none_iff docs st.rows).mp hr r hrr)
        · exact (newFileCheck_none_iff st.rows docs).mp hn
      · intro _
        trivial
    · simp only []
      constructor
      · intro hcontra
        simp at hcontra
      · intro hcond
        have h2 : newFileCheck st.rows docs = none := by
          rw [newFileCheck_none_iff]
          exact hcond.2.2.2.2
        rw [h2] at hn
        cases hn
  · simp only []
    constructor
    · intro hcontra
      simp at hcontra
    · intro hcond
      have h2 : rowsCheck docs st.rows = none := by
        rw [rowsCheck_none_iff]
        intro r hrr
        exact (expectedMtime_eq_some_iff docs r.filename r.fileMtime hndf).mpr
          (hcond.2.2.2.1 r hrr)
      rw [h2] at hr
      cases hr

/-- The row `Index` writes for a document into the SQLite store. -/
def rowOf (emb : Emb) (d : CommandDoc) : SqlRow :=
  ⟨"cmd_" ++ d.command, d.command, d.filename, d.updatedAt,
    encodeVector (embVec emb d), ⟨d.command, d.filename, d.updatedAt⟩⟩

def indexRows (emb : Emb) (docs : List CommandDoc) (s : List SqlRow) : List SqlRow :=
  docs.foldl (fun acc d => sqlUpsertRow acc (rowOf emb d)) s

theorem sqlIndexLoop_success (emb : Emb) (docs : List CommandDoc)
    (hok : ∀ x ∈ docs, ∃ v, emb (buildSearchText x) = .ok v ∧ v.isEmpty = false) :
    ∀ s, indexLoop sqlAdd emb docs s = (indexRows emb docs s, none, docs.length) := by
  induction docs with
  | nil => intro s; rfl
  | cons d rest ih =>
      intro s
      obtain ⟨v, hv, hvne⟩ := hok d (List.mem_cons_self _ _)
      have hrest : ∀ x ∈ rest, ∃ v, emb (buildSearchText x) = .ok v ∧ v.isEmpty = false :=
        fun x hx => hok x (List.mem_cons_of_mem _ hx)
      have hrow : rowOf emb d
          = ⟨"cmd_" ++ d.command, d.command, d.filename, d.updatedAt, encodeVector v,
             ⟨d.command, d.filename, d.updatedAt⟩⟩ := by
        simp [rowOf, embVec, hv, Except.toOption]
      have hadd : sqlAdd s ("cmd_" ++ d.command) v ⟨d.command, d.filename, d.updatedAt⟩
          = .ok (sqlUpsertRow s (rowOf emb d)) := by
        simp [sqlAdd, hvne, hrow]
      simp only [indexLoop, hv, hadd, ih hrest, indexRows, List.foldl_cons, List.length_cons]

theorem sqlUpsertRow_append (rows : List SqlRow) (r : SqlRow)
    (h : r.id ∉ rows.map (fun x => x.id)) : sqlUpsertRow rows r = rows ++ [r] := by
  induction rows with
  | nil => rfl
  | cons x xs ih =>
      have hx : ¬(x.id = r.id) := by
        intro hc
        exact h (by simp [← hc])
      simp only [sqlUpsertRow, if_neg hx, List.cons_append]
      rw [ih (by intro hc; exact h (by simp [hc]))]

theorem indexRows_eq_map (emb : Emb) (docs : List CommandDoc)
    (hndc : (docs.map (fun d => d.command)).Nodup) :
    ∀ s : List SqlRow, (∀ d ∈ docs, ("cmd_" ++ d.command) ∉ s.map (fun x => x.id))
      → indexRows emb docs s = s ++ docs.map (rowOf emb) := by
  induction docs with
  | nil => intro s _; simp [indexRows]
  | cons d rest ih =>
      intro s hdisj
      have hstep : sqlUpsertRow s (rowOf emb d) = s ++ [rowOf emb d] :=
        sqlUpsertRow_append s (rowOf emb d) (hdisj d (List.mem_cons_self _ _))
      have hnd2 : (rest.map (fun d => d.command)).Nodup := by
        simpa using hndc.of_cons
      have hdnotin : d.command ∉ rest.map (fun d => d.command) := by
        have := hndc
        simp only [List.map_cons, List.nodup_cons] at this
        exact this.1
      have hdisj2 : ∀ d2 ∈ rest, ("cmd_" ++ d2.command) ∉ (s ++ [rowOf emb d]).map (fun x => x.id) := by
        intro d2 hd2
        simp only [List.map_append, List.mem_append]
        rintro (hc | hc)
        · exact hdisj d2 (List.mem_cons_of_mem _ hd2) hc
        · simp only [List.map_cons, List.map_nil, List.mem_singleton, rowOf] at hc
          exact hdnotin (by
            rw [← (cmdPrefix_eq_iff d2.command d.command).mp hc]
            exact List.mem_map_of_mem _ hd2)
      have hfold : indexRows emb (d :: rest) s = indexRows emb rest (sqlUpsertRow s (rowOf emb d)) := by
        simp [indexRows, List.foldl_cons]
      rw [hfold, hstep, ih hnd2 (s ++ [rowOf emb d]) hdisj2]
      simp

theorem rowsCheck_some_shape (docs : List CommandDoc) (rows : List SqlRow) (reason : String)
    (h : rowsCheck docs rows = some reason) :
    ∃ r ∈ rows, reason = "file deleted: " ++ r.filename
      ∨ reason = "file modified: " ++ r.filename := by
  induction rows with
  | nil => cases h
  | cons r rest ih =>
      rcases he : expectedMtime docs r.filename with _ | t
      · rw [show rowsCheck docs (r :: rest) = some ("file deleted: " ++ r.filename) by
          simp [rowsCheck, he]] at h
        exact ⟨r, List.mem_cons_self _ _, Or.inl (Option.some.inj h).symm⟩
      · by_cases ht : t = r.fileMtime
        · subst ht
          rw [show rowsCheck docs (r :: rest) = rowsCheck docs rest by
            simp [rowsCheck, he]] at h
          obtain ⟨r2, hr2, hsh⟩ := ih h
          exact ⟨r2, List.mem_cons_of_mem _ hr2, hsh⟩
        · rw [show rowsCheck docs (r :: rest) = some ("file modified: " ++ r.filename) by
            simp [rowsCheck, he, ht]] at h
          exact ⟨r, List.mem_cons_self _ _, Or.inr (Option.some.inj h).symm⟩

theorem newFileCheck_some_shape (rows : List SqlRow) (docs : List CommandDoc) (reason : String)
    (h : newFileCheck rows docs = some reason) :
    ∃ d ∈ docs, reason = "new file added: " ++ d.filename := by
  simp only [newFileCheck, Option.map_eq_some'] at h
  obtain ⟨d, hd, hr⟩ := h
  exact ⟨d, List.mem_of_find?_eq_some hd, hr.symm⟩

/-- Helper: whenever `IsValid` reports invalid, the reason names the changed
metadata field or the specific file that was modified, deleted or added. -/
theorem isValid_reason_shape (st : SqlStore) (docs : List CommandDoc)
    (p m : String) (dm : Nat) (reason : String)
    (h : isValid st docs p m dm = (false, reason)) :
    reason = "provider changed: " ++ st.metaProvider ++ " → " ++ p
    ∨ reason = "model changed: " ++ st.metaModel ++ " → " ++ m
    ∨ reason = "dimensions changed: " ++ st.metaDims ++ " → " ++ toString dm
    ∨ (∃ r ∈ st.rows, reason = "file deleted: " ++ r.filename
        ∨ reason = "file modified: " ++ r.filename)
    ∨ (∃ d ∈ docs, reason = "new file added: " ++ d.filename) := by
  by_cases hp : st.metaProvider = p
  case neg =>
    rw [show isValid st docs p m dm
        = (false, "provider changed: " ++ st.metaProvider ++ " → " ++ p) by
      simp [isValid, hp]] at h
    exact Or.inl (congrArg Prod.snd h).symm
  by_cases hm : st.metaModel = m
  case neg =>
    rw [show isValid st docs p m dm
        = (false, "model changed: " ++ st.metaModel ++ " → " ++ m) by
      simp [isValid, hp, hm]] at h
    exact Or.inr (Or.inl (congrArg Prod.snd h).symm)
  by_cases hd : st.metaDims = toString dm
  case neg =>
    rw [show isValid st docs p m dm
        = (false, "dimensions changed: " ++ st.metaDims ++ " → " ++ toString dm) by
      simp [isValid, hp, hm, hd]] at h
    exact Or.inr (Or.inr (Or.inl (congrArg Prod.snd h).symm))
  have h1 : isValid st docs p m dm
      = (match rowsCheck docs st.rows with
        | some r2 => (false, r2)
        | none =>
            match newFileCheck st.rows docs with
            | some r3 => (false, r3)
            | none => (true, "")) := by
    simp [isValid, hp, hm, hd]
  rw [h1] at h
  rcases hr : rowsCheck docs st.rows with _ | r2
  · rcases hn : newFileCheck st.rows docs with _ | r3
    · rw [hr, hn] at h
      simp at h
    · rw [hr, hn] at h
      have hre : r3 = reason := congrArg Prod.snd h
      obtain ⟨d, hd2, hsh⟩ := newFileCheck_some_shape st.rows docs r3 hn
      exact Or.inr (Or.inr (Or.inr (Or.inr ⟨d, hd2, hre ▸ hsh⟩)))
  · rw [hr] at h
    have hre : r2 = reason := congrArg Prod.snd h
    obtain ⟨r, hr2, hsh⟩ := rowsCheck_some_shape docs st.rows r2 hr
    exact Or.inr (Or.inr (Or.inr (Or.inl ⟨r, hr2, hre ▸ hsh⟩)))

/-- C4: `SQLiteStore.IsValid` returns `(true, "")` exactly when the stored
provider/model/dimensions equal the requested triple, every cached row's
filename occurs among the documents with an identical second-granularity
Unix mtime, and every document's filename is cached; and validating
immediately after indexing a document set (distinct filenames and command
names, as a set of parsed files has) against a store carrying the same
triple yields `(true, "")`. -/
theorem isValid_correct (st : SqlStore) (docs : List CommandDoc)
    (p m : String) (dm : Nat) (emb : Emb)
    (hndf : (docs.map (fun d => d.filename)).Nodup)
    (hndc : (docs.map (fun d => d.command)).Nodup)
    (hok : ∀ x ∈ docs, ∃ v, emb (buildSearchText x) = .ok v ∧ v.isEmpty = false) :
    (isValid st docs p m dm = (true, "")
      ↔ (st.metaProvider = p ∧ st.metaModel = m ∧ st.metaDims = toString dm
          ∧ (∀ r ∈ st.rows, ∃ d ∈ docs, d.filename = r.filename ∧ d.updatedAt = r.fileMtime)
          ∧ (∀ d ∈ docs, ∃ r ∈ st.rows, r.filename = d.filename)))
    ∧ (∀ reason, isValid st docs p m dm = (false, reason)
        → reason = "provider changed: " ++ st.metaProvider ++ " → " ++ p
          ∨ reason = "model changed: " ++ st.metaModel ++ " → " ++ m
          ∨ reason = "dimensions changed: " ++ st.metaDims ++ " → " ++ toString dm
          ∨ (∃ r ∈ st.rows, reason = "file deleted: " ++ r.filename
              ∨ reason = "file modified: " ++ r.filename)
          ∨ (∃ d ∈ docs, reason = "new file added: " ++ d.filename))
    ∧ (st.metaProvider = p → st.metaModel = m → st.metaDims = toString dm
        → isValid (sqlIndex emb st docs).1 docs p m dm = (true, "")) := by
  refine ⟨isValid_eq_true_iff st docs p m dm hndf,
    fun reason h => isValid_reason_shape st docs p m dm reason h, ?_⟩
  intro hp hm hd
  have hloop := sqlIndexLoop_success emb docs hok []
  have hst : (sqlIndex emb st docs).1
      = ⟨st.metaProvider, st.metaModel, st.metaDims, docs.map (rowOf emb)⟩ := by
    simp only [sqlIndex, hloop]
    rw [indexRows_eq_map emb docs hndc [] (by simp)]
    rfl
  rw [hst]
  rw [isValid_eq_true_iff ⟨st.metaProvider, st.metaModel, st.metaDims, docs.map (rowOf emb)⟩
    docs p m dm hndf]
  refine ⟨hp, hm, hd, ?_, ?_⟩
  · intro r hr
    obtain ⟨d2, hd2, rfl⟩ := List.mem_map.mp hr
    exact ⟨d2, hd2, rfl, rfl⟩
  · intro d2 hd2
    exact ⟨rowOf emb d2, List.mem_map_of_mem _ hd2, rfl⟩

/-- Witness for C4 at a concrete store and document set. -/
theorem isValid_correct_witness :
    isValid (sqlIndex unitEmb ⟨"openai", "text-embedding-3-small", "1536", []⟩ [cexDocA]).1
        [cexDocA] "openai" "text-embedding-3-small" 1536 = (true, "") := by
  have h := isValid_correct ⟨"openai", "text-embedding-3-small", "1536", []⟩ [cexDocA]
    "openai" "text-embedding-3-small" 1536 unitEmb (by decide) (by decide)
    (fun x _ => ⟨[1065353216], rfl, rfl⟩)
  exact h.2.2 rfl rfl (by decide)
